/-
Verification of the pairwise similarity/distance metrics engine
(`lib/compute_similarity.js` of wink-utils).

The source file is shallowly embedded below.  JavaScript numbers are
modelled as exact rationals (`ℚ`); character sequences as `List Char`;
finite sets as `Finset`; sparse bag-of-words vectors as association
lists with distinct keys.  The cached Damerau-Levenshtein engine's
mutable matrix is modelled as an explicit state (`Mat := ℕ → ℕ → ℤ`)
threaded through every call, with each JavaScript assignment an
explicit functional update, so that statements about reuse of the
matrix across calls are expressible.

The base Jaro similarity (`jaro.js`) is an external collaborator of the
source file; `jaroWinkler` is therefore parameterised over it.
-/
import Mathlib

namespace ComputeSimilarity

/-- Result shape shared by all metrics: `{distance, similarity}`. -/
structure SimResult (α : Type) where
  distance : α
  similarity : α
  deriving DecidableEq

/-! ### Set metrics: jaccard and tversky -/

/-- Embeds the shared intersection-count loop of `similarity.set.jaccard`
and `similarity.set.tversky`: the smaller set is iterated, testing
membership in the larger one. -/
def intersectSize {α : Type} [DecidableEq α] (sa sb : Finset α) : ℕ :=
  if sa.card < sb.card then (sa.filter (fun e => e ∈ sb)).card
  else (sb.filter (fun e => e ∈ sa)).card

/-- Embeds `similarity.set.jaccard`. -/
def jaccard {α : Type} [DecidableEq α] (sa sb : Finset α) : SimResult ℚ :=
  let i : ℚ := intersectSize sa sb
  let smlrty := i / ((sa.card : ℚ) + (sb.card : ℚ) - i)
  ⟨1 - smlrty, smlrty⟩

/-- Embeds `similarity.set.tversky`; `none` models an omitted
(`undefined`) parameter. -/
def tversky {α : Type} [DecidableEq α] (sa sb : Finset α)
    (alpha beta : Option ℚ) : SimResult ℚ :=
  let a := alpha.getD (1/2)
  let b := beta.getD (1/2)
  let i : ℚ := intersectSize sa sb
  let saMinusSBsize := (sa.card : ℚ) - i
  let sbMinusSAsize := (sb.card : ℚ) - i
  let smlrty := i / (i + a * saMinusSBsize + b * sbMinusSAsize)
  ⟨1 - smlrty, smlrty⟩

/-! ### Jaro-Winkler -/

/-- JavaScript string indexing `s[i]` / `s.charAt(i)`; every use below is
in range, so the default character is never produced. -/
def charAt (s : List Char) (i : ℕ) : Char := s.getD i ' '

/-- Embeds the common-prefix counting loop of `jaroWinkler`
(`for i in 0..<pLimit: if s1[i] === s2[i] then l += 1 else break`):
`jwLead s1 s2 i fuel` counts matching positions from index `i` with
`fuel` iterations remaining. -/
def jwLead (s1 s2 : List Char) : ℕ → ℕ → ℕ
  | _, 0 => 0
  | i, fuel+1 =>
    if charAt s1 i = charAt s2 i then jwLead s1 s2 (i+1) fuel + 1 else 0

/-- Length of the common leading segment of two sequences, written from
the spec's description of `l` (count of leading positions where
`s1[i] == s2[i]`, stopping at the first mismatch). -/
def commonLead : List Char → List Char → ℕ
  | a :: as, b :: bs => if a = b then commonLead as bs + 1 else 0
  | _, _ => 0

/-- Embeds `similarity.string.jaroWinkler`, parameterised over the
external base-Jaro collaborator `jaroFn`; `none` models an omitted
parameter. -/
def jaroWinkler (jaroFn : List Char → List Char → SimResult ℚ)
    (s1 s2 : List Char) (scalingFactor boostThreshold : Option ℚ) :
    SimResult ℚ :=
  if s1 = s2 then ⟨0, 1⟩ else
  let sf0 := scalingFactor.getD (1/10)
  let bt0 := boostThreshold.getD (7/10)
  let sf := min |sf0| (1/4)
  let bt := min |bt0| 1
  let ds := jaroFn s1 s2
  if ds.similarity < bt then ds
  else
    let pLimit := min s1.length (min s2.length 4)
    let l : ℕ := jwLead s1 s2 0 pLimit
    let smlrty := ds.similarity + ((l : ℚ) * sf * (1 - ds.similarity))
    ⟨1 - smlrty, smlrty⟩

theorem jwLead_shift (a b : Char) (s1 s2 : List Char) :
    ∀ fuel i, jwLead (a :: s1) (b :: s2) (i+1) fuel = jwLead s1 s2 i fuel := by
  intro fuel
  induction fuel with
  | zero => intro i; rfl
  | succ n ih =>
    intro i
    simp only [jwLead, charAt, List.getD_cons_succ, ih]

theorem jwLead_eq_commonLead :
    ∀ (limit : ℕ) (s1 s2 : List Char), limit ≤ s1.length → limit ≤ s2.length →
      jwLead s1 s2 0 limit = min (commonLead s1 s2) limit := by
  intro limit
  induction limit with
  | zero => intro s1 s2 _ _; simp [jwLead]
  | succ n ih =>
    intro s1 s2 h1 h2
    match s1, s2 with
    | a :: as, b :: bs =>
      simp only [jwLead, charAt, List.getD_cons_zero, jwLead_shift]
      by_cases hab : a = b
      · rw [if_pos hab]
        rw [ih as bs (by simpa using h1) (by simpa using h2)]
        simp [commonLead, if_pos hab, Nat.succ_min_succ]
      · rw [if_neg hab]
        simp [commonLead, if_neg hab]

/-! ### Cached Damerau-Levenshtein engine (`createDLFunction`)

The engine's reused matrix is modelled as an explicit state value of
type `Mat`; each JavaScript assignment `matrix[i][j] = v` is the
functional update `wr m i j v`, and each read is an application of the
current state.  A call to the returned distance function is the state
transformer `dlRun`. -/

/-- The engine matrix: current contents of `matrix[i][j]`. -/
def Mat : Type := ℕ → ℕ → ℤ

/-- `matrix[i][j] = v`. -/
def wr (m : Mat) (i j : ℕ) (v : ℤ) : Mat :=
  fun a b => if a = i ∧ b = j then v else m a b

/-- First initialisation loop: `for i in 0..s2Len: matrix[i][0] = i`. -/
def initRow (m : Mat) (s2Len : ℕ) : Mat :=
  (List.range (s2Len+1)).foldl (fun acc i => wr acc i 0 (i : ℤ)) m

/-- Second initialisation loop: `for j in 0..s1Len: matrix[0][j] = j`. -/
def initCol (m : Mat) (s1Len : ℕ) : Mat :=
  (List.range (s1Len+1)).foldl (fun acc j => wr acc 0 j (j : ℤ)) m

/-- Body of the inner `for j` loop of the distance function: computes
cell `matrix[i][j]`, including the transpose check that may overwrite
it. -/
def fillCell (s1 s2 : List Char) (m : Mat) (i j : ℕ) : Mat :=
  if charAt s2 (i-1) = charAt s1 (j-1) then wr m i j (m (i-1) (j-1))
  else
    let v := min (m (i-1) (j-1) + 1) (min (m i (j-1) + 1) (m (i-1) j + 1))
    let m1 := wr m i j v
    if 1 < i ∧ 1 < j ∧ charAt s2 (i-1) = charAt s1 (j-2) ∧
        charAt s2 (i-2) = charAt s1 (j-1) ∧ m1 (i-2) (j-2) < m1 i j
    then wr m1 i j (m1 (i-2) (j-2) + 1)
    else m1

/-- The inner `for j = 1..s1Len` loop for one row `i`. -/
def fillRow (s1 s2 : List Char) (m : Mat) (i : ℕ) : Mat :=
  (List.range' 1 s1.length).foldl (fun acc j => fillCell s1 s2 acc i j) m

/-- Initialisation plus the main `for i = 1..s2Len` loop. -/
def fillAll (s1 s2 : List Char) (m : Mat) : Mat :=
  (List.range' 1 s2.length).foldl (fillRow s1 s2)
    (initCol (initRow m s2.length) s1.length)

/-- One call of the function returned by `createDLFunction`: takes the
current matrix state, returns the updated state and the result. -/
def dlRun (s1 s2 : List Char) (m : Mat) : Mat × SimResult ℚ :=
  if s2.length = 0 then (m, ⟨(s1.length : ℚ), 0⟩)
  else if s1.length = 0 then (m, ⟨(s2.length : ℚ), 0⟩)
  else
    let M := fillAll s1 s2 m
    (M, ⟨((M s2.length s1.length : ℤ) : ℚ),
         1 - ((M s2.length s1.length : ℤ) : ℚ) /
             ((max s1.length s2.length : ℕ) : ℚ)⟩)

/-- An engine instance: the closed-over capacity and matrix.  In the
source a fresh matrix has unwritten (`undefined`) cells; the theorems
below quantify over arbitrary matrix contents, which subsumes any
state a matrix can be in. -/
structure DLEngine where
  maxLen : ℕ
  matrix : Mat

/-- Embeds `similarity.string.createDLFunction`; `none` models an
omitted `maxLen`, and `maxLen || 60` maps `0` to the default as in
JavaScript.  The fresh matrix is represented by the all-zero state (see
`DLEngine`). -/
def createDLFunction (maxLen : Option ℕ) : DLEngine :=
  ⟨(match maxLen with
    | none => 60
    | some v => if v = 0 then 60 else v),
   fun _ _ => 0⟩

/-- Calling the engine's distance function: threads the matrix state. -/
def engineDistance (e : DLEngine) (s1 s2 : List Char) :
    DLEngine × SimResult ℚ :=
  let r := dlRun s1 s2 e.matrix
  (⟨e.maxLen, r.1⟩, r.2)

/-- The pure dynamic-programming recurrence that the imperative fill
implements: `dlMat s1 s2 i j` is the value the algorithm stores in
`matrix[i][j]` (rows indexed by `s2`, columns by `s1`). -/
def dlMat (s1 s2 : List Char) : ℕ → ℕ → ℤ
  | 0, j => (j : ℤ)
  | i+1, 0 => ((i : ℤ) + 1)
  | i+1, j+1 =>
    if charAt s2 i = charAt s1 j then dlMat s1 s2 i j
    else
      let v := min (dlMat s1 s2 i j + 1)
        (min (dlMat s1 s2 (i+1) j + 1) (dlMat s1 s2 i (j+1) + 1))
      if 0 < i ∧ 0 < j ∧ charAt s2 i = charAt s1 (j-1) ∧
          charAt s2 (i-1) = charAt s1 j ∧ dlMat s1 s2 (i-1) (j-1) < v
      then dlMat s1 s2 (i-1) (j-1) + 1
      else v
  termination_by i j => i + j
  decreasing_by all_goals omega

theorem dlMat_zero_left (s1 s2 : List Char) (j : ℕ) :
    dlMat s1 s2 0 j = (j : ℤ) := by
  simp [dlMat]

theorem dlMat_zero_right (s1 s2 : List Char) (i : ℕ) :
    dlMat s1 s2 i 0 = (i : ℤ) := by
  match i with
  | 0 => simp [dlMat]
  | i+1 => simp [dlMat]

theorem dlMat_succ_succ (s1 s2 : List Char) (i j : ℕ) :
    dlMat s1 s2 (i+1) (j+1) =
      if charAt s2 i = charAt s1 j then dlMat s1 s2 i j
      else
        let v := min (dlMat s1 s2 i j + 1)
          (min (dlMat s1 s2 (i+1) j + 1) (dlMat s1 s2 i (j+1) + 1))
        if 0 < i ∧ 0 < j ∧ charAt s2 i = charAt s1 (j-1) ∧
            charAt s2 (i-1) = charAt s1 j ∧ dlMat s1 s2 (i-1) (j-1) < v
        then dlMat s1 s2 (i-1) (j-1) + 1
        else v := by
  rw [dlMat]

theorem wr_same (m : Mat) (i j : ℕ) (v : ℤ) : wr m i j v i j = v := by
  simp [wr]

theorem wr_ne (m : Mat) (i j : ℕ) (v : ℤ) (a b : ℕ)
    (h : ¬(a = i ∧ b = j)) : wr m i j v a b = m a b := by
  simp [wr, h]

theorem wr_wr (m : Mat) (i j : ℕ) (v w : ℤ) :
    wr (wr m i j v) i j w = wr m i j w := by
  funext a b
  by_cases h : a = i ∧ b = j
  · simp [wr, h]
  · simp [wr, h]

theorem initRow_read (m : Mat) (n a b : ℕ) :
    initRow m n a b = if b = 0 ∧ a ≤ n then (a : ℤ) else m a b := by
  induction n generalizing a b with
  | zero =>
    show wr m 0 0 0 a b = _
    by_cases h : a = 0 ∧ b = 0
    · obtain ⟨rfl, rfl⟩ := h; simp [wr]
    · rw [wr_ne m 0 0 0 a b (by tauto)]
      have hno : ¬(b = 0 ∧ a ≤ 0) := by omega
      rw [if_neg hno]
  | succ n ih =>
    have hstep : initRow m (n+1) = wr (initRow m n) (n+1) 0 ((n:ℤ)+1) := by
      unfold initRow
      rw [List.range_succ, List.foldl_append]
      simp
    rw [hstep]
    by_cases h : a = n+1 ∧ b = 0
    · obtain ⟨rfl, rfl⟩ := h
      rw [wr_same]
      have : (0 = 0 ∧ n+1 ≤ n+1) := by omega
      simp [this]
    · rw [wr_ne _ _ _ _ _ _ h, ih]
      by_cases hb : b = 0 ∧ a ≤ n
      · have hb2 : b = 0 ∧ a ≤ n+1 := by omega
        simp [hb, hb2]
      · have hb2 : ¬(b = 0 ∧ a ≤ n+1) := by
          rcases Decidable.not_and_iff_or_not.mp hb with h1 | h1
          · tauto
          · intro hcon
            exact h ⟨by omega, hcon.1⟩
        simp [hb, hb2]

theorem initCol_read (m : Mat) (k a b : ℕ) :
    initCol m k a b = if a = 0 ∧ b ≤ k then (b : ℤ) else m a b := by
  induction k generalizing a b with
  | zero =>
    show wr m 0 0 0 a b = _
    by_cases h : a = 0 ∧ b = 0
    · obtain ⟨rfl, rfl⟩ := h; simp [wr]
    · rw [wr_ne m 0 0 0 a b (by tauto)]
      have hno : ¬(a = 0 ∧ b ≤ 0) := by omega
      rw [if_neg hno]
  | succ k ih =>
    have hstep : initCol m (k+1) = wr (initCol m k) 0 (k+1) ((k:ℤ)+1) := by
      unfold initCol
      rw [List.range_succ, List.foldl_append]
      simp
    rw [hstep]
    by_cases h : a = 0 ∧ b = k+1
    · obtain ⟨rfl, rfl⟩ := h
      rw [wr_same]
      have : (0 = 0 ∧ k+1 ≤ k+1) := by omega
      simp [this]
    · rw [wr_ne _ _ _ _ _ _ h, ih]
      by_cases hb : a = 0 ∧ b ≤ k
      · have hb2 : a = 0 ∧ b ≤ k+1 := by omega
        simp [hb, hb2]
      · have hb2 : ¬(a = 0 ∧ b ≤ k+1) := by
          rcases Decidable.not_and_iff_or_not.mp hb with h1 | h1
          · tauto
          · intro hcon
            exact h ⟨hcon.1, by omega⟩
        simp [hb, hb2]

/-- Row 0 and column 0 of the matrix hold their initialised values. -/
def Borders (s1 s2 : List Char) (m : Mat) : Prop :=
  (∀ i, i ≤ s2.length → m i 0 = (i : ℤ)) ∧
  (∀ j, j ≤ s1.length → m 0 j = (j : ℤ))

/-- Rows `1..r` of the matrix agree with the pure recurrence. -/
def RowsDone (s1 s2 : List Char) (m : Mat) (r : ℕ) : Prop :=
  ∀ i j, 1 ≤ i → i ≤ r → 1 ≤ j → j ≤ s1.length → m i j = dlMat s1 s2 i j

theorem cell_read (s1 s2 : List Char) (m : Mat) {i st : ℕ}
    (hB : Borders s1 s2 m) (hR : RowsDone s1 s2 m (i-1))
    (hP : ∀ j, 1 ≤ j → j < st → m i j = dlMat s1 s2 i j) :
    ∀ a b, a ≤ s2.length → b ≤ s1.length →
      (a < i ∨ (a = i ∧ b < st) ∨ a = 0 ∨ b = 0) →
      m a b = dlMat s1 s2 a b := by
  intro a b ha hb hcase
  by_cases ha0 : a = 0
  · subst ha0
    rw [hB.2 b hb, dlMat_zero_left]
  by_cases hb0 : b = 0
  · subst hb0
    rw [hB.1 a ha, dlMat_zero_right]
  rcases hcase with h | h | h | h
  · exact hR a b (by omega) (by omega) (by omega) hb
  · obtain ⟨rfl, hlt⟩ := h
    exact hP b (by omega) hlt
  · omega
  · omega

theorem fillCell_write (s1 s2 : List Char) (m : Mat) (i j : ℕ)
    (hi : 1 ≤ i) (hj : 1 ≤ j)
    (h1 : m (i-1) (j-1) = dlMat s1 s2 (i-1) (j-1))
    (h2 : m i (j-1) = dlMat s1 s2 i (j-1))
    (h3 : m (i-1) j = dlMat s1 s2 (i-1) j)
    (h4 : m (i-2) (j-2) = dlMat s1 s2 (i-2) (j-2)) :
    fillCell s1 s2 m i j = wr m i j (dlMat s1 s2 i j) := by
  obtain ⟨i', rfl⟩ : ∃ i', i = i' + 1 := ⟨i - 1, by omega⟩
  obtain ⟨j', rfl⟩ : ∃ j', j = j' + 1 := ⟨j - 1, by omega⟩
  have e1 : i' + 1 - 1 = i' := rfl
  have e2 : j' + 1 - 1 = j' := rfl
  have e3 : i' + 1 - 2 = i' - 1 := rfl
  have e4 : j' + 1 - 2 = j' - 1 := rfl
  have h1 : m i' j' = dlMat s1 s2 i' j' := h1
  have h2 : m (i'+1) j' = dlMat s1 s2 (i'+1) j' := h2
  have h3 : m i' (j'+1) = dlMat s1 s2 i' (j'+1) := h3
  have h4 : m (i'-1) (j'-1) = dlMat s1 s2 (i'-1) (j'-1) := h4
  rw [dlMat_succ_succ]
  unfold fillCell
  simp only [e1, e2, e3, e4]
  by_cases hc : charAt s2 i' = charAt s1 j'
  · rw [if_pos hc, if_pos hc, h1]
  · rw [if_neg hc, if_neg hc]
    simp only [h1, h2, h3]
    set v := min (dlMat s1 s2 i' j' + 1)
      (min (dlMat s1 s2 (i'+1) j' + 1) (dlMat s1 s2 i' (j'+1) + 1)) with hv
    have hr1 : wr m (i'+1) (j'+1) v (i'-1) (j'-1) = dlMat s1 s2 (i'-1) (j'-1) := by
      rw [wr_ne _ _ _ _ _ _ (by omega), h4]
    have hr2 : wr m (i'+1) (j'+1) v (i'+1) (j'+1) = v := wr_same _ _ _ _
    rw [hr1, hr2]
    have hiff : (1 < i' + 1 ∧ 1 < j' + 1 ∧ charAt s2 i' = charAt s1 (j'-1) ∧
        charAt s2 (i'-1) = charAt s1 j' ∧ dlMat s1 s2 (i'-1) (j'-1) < v) ↔
        (0 < i' ∧ 0 < j' ∧ charAt s2 i' = charAt s1 (j'-1) ∧
        charAt s2 (i'-1) = charAt s1 j' ∧ dlMat s1 s2 (i'-1) (j'-1) < v) := by
      constructor
      · rintro ⟨a1, a2, a3, a4, a5⟩
        exact ⟨by omega, by omega, a3, a4, a5⟩
      · rintro ⟨a1, a2, a3, a4, a5⟩
        exact ⟨by omega, by omega, a3, a4, a5⟩
    by_cases ht : (0 < i' ∧ 0 < j' ∧ charAt s2 i' = charAt s1 (j'-1) ∧
        charAt s2 (i'-1) = charAt s1 j' ∧ dlMat s1 s2 (i'-1) (j'-1) < v)
    · rw [if_pos (hiff.mpr ht), if_pos ht, wr_wr]
    · rw [if_neg (fun hcon => ht (hiff.mp hcon)), if_neg ht]

theorem fillRow_go (s1 s2 : List Char) (i : ℕ) (hi1 : 1 ≤ i)
    (hi2 : i ≤ s2.length) :
    ∀ (cnt st : ℕ) (m : Mat), 1 ≤ st → st + cnt ≤ s1.length + 1 →
      Borders s1 s2 m → RowsDone s1 s2 m (i-1) →
      (∀ j, 1 ≤ j → j < st → m i j = dlMat s1 s2 i j) →
      Borders s1 s2
        ((List.range' st cnt).foldl (fun acc j => fillCell s1 s2 acc i j) m) ∧
      RowsDone s1 s2
        ((List.range' st cnt).foldl (fun acc j => fillCell s1 s2 acc i j) m)
        (i-1) ∧
      (∀ j, 1 ≤ j → j < st + cnt →
        ((List.range' st cnt).foldl (fun acc j => fillCell s1 s2 acc i j) m)
          i j = dlMat s1 s2 i j) := by
  intro cnt
  induction cnt with
  | zero =>
    intro st m hst _ hB hR hP
    exact ⟨hB, hR, fun j h1 h2 => hP j h1 (by omega)⟩
  | succ cnt ih =>
    intro st m hst hlen hB hR hP
    have hrange : List.range' st (cnt+1) = st :: List.range' (st+1) cnt := rfl
    rw [hrange]
    simp only [List.foldl_cons]
    have hread := cell_read s1 s2 m hB hR hP
    have hstle : st ≤ s1.length := by omega
    have hw : fillCell s1 s2 m i st = wr m i st (dlMat s1 s2 i st) := by
      apply fillCell_write s1 s2 m i st hi1 hst
      · exact hread (i-1) (st-1) (by omega) (by omega) (by omega)
      · exact hread i (st-1) (by omega) (by omega) (by omega)
      · exact hread (i-1) st (by omega) (by omega) (by omega)
      · exact hread (i-2) (st-2) (by omega) (by omega) (by omega)
    rw [hw]
    have hB' : Borders s1 s2 (wr m i st (dlMat s1 s2 i st)) := by
      constructor
      · intro a ha
        rw [wr_ne _ _ _ _ _ _ (by omega)]
        exact hB.1 a ha
      · intro b hb
        rw [wr_ne _ _ _ _ _ _ (by omega)]
        exact hB.2 b hb
    have hR' : RowsDone s1 s2 (wr m i st (dlMat s1 s2 i st)) (i-1) := by
      intro a b ha1 ha2 hb1 hb2
      rw [wr_ne _ _ _ _ _ _ (by omega)]
      exact hR a b ha1 ha2 hb1 hb2
    have hP' : ∀ j, 1 ≤ j → j < st+1 →
        (wr m i st (dlMat s1 s2 i st)) i j = dlMat s1 s2 i j := by
      intro j h1 h2
      by_cases hj : j = st
      · subst hj; rw [wr_same]
      · rw [wr_ne _ _ _ _ _ _ (by omega)]
        exact hP j h1 (by omega)
    have := ih (st+1) (wr m i st (dlMat s1 s2 i st)) (by omega) (by omega)
      hB' hR' hP'
    refine ⟨this.1, this.2.1, fun j h1 h2 => this.2.2 j h1 (by omega)⟩

theorem fillAll_go (s1 s2 : List Char) :
    ∀ (cnt st : ℕ) (m : Mat), 1 ≤ st → st + cnt ≤ s2.length + 1 →
      Borders s1 s2 m → RowsDone s1 s2 m (st-1) →
      Borders s1 s2 ((List.range' st cnt).foldl (fillRow s1 s2) m) ∧
      RowsDone s1 s2 ((List.range' st cnt).foldl (fillRow s1 s2) m)
        (st - 1 + cnt) := by
  intro cnt
  induction cnt with
  | zero =>
    intro st m hst _ hB hR
    exact ⟨hB, by simpa using hR⟩
  | succ cnt ih =>
    intro st m hst hlen hB hR
    have hrange : List.range' st (cnt+1) = st :: List.range' (st+1) cnt := rfl
    rw [hrange]
    simp only [List.foldl_cons]
    have hrow := fillRow_go s1 s2 st hst (by omega) s1.length 1 m (by omega)
      (by omega) hB hR (by omega)
    have hR1 : RowsDone s1 s2 (fillRow s1 s2 m st) st := by
      intro a b ha1 ha2 hb1 hb2
      by_cases ha : a = st
      · subst ha
        exact hrow.2.2 b hb1 (by omega)
      · exact hrow.2.1 a b ha1 (by omega) hb1 hb2
    have := ih (st+1) (fillRow s1 s2 m st) (by omega) (by omega) hrow.1
      (by simpa using hR1)
    refine ⟨this.1, ?_⟩
    have harith : st + 1 - 1 + cnt = st - 1 + (cnt + 1) := by omega
    rw [harith] at this
    exact this.2

theorem init_borders (s1 s2 : List Char) (m : Mat) :
    Borders s1 s2 (initCol (initRow m s2.length) s1.length) := by
  constructor
  · intro i hi
    rw [initCol_read]
    by_cases h0 : i = 0
    · subst h0
      rw [if_pos ⟨rfl, by omega⟩]
    · rw [if_neg (by tauto), initRow_read, if_pos ⟨rfl, hi⟩]
  · intro j hj
    rw [initCol_read, if_pos ⟨rfl, hj⟩]

theorem fillAll_read (s1 s2 : List Char) (m : Mat)
    (_h1 : 1 ≤ s1.length) (_h2 : 1 ≤ s2.length) :
    ∀ i j, 1 ≤ i → i ≤ s2.length → 1 ≤ j → j ≤ s1.length →
      fillAll s1 s2 m i j = dlMat s1 s2 i j := by
  have hR0 : RowsDone s1 s2 (initCol (initRow m s2.length) s1.length) 0 := by
    intro a b ha1 ha2 _ _
    omega
  have := fillAll_go s1 s2 s2.length 1 (initCol (initRow m s2.length) s1.length)
    (by omega) (by omega) (init_borders s1 s2 m) (by simpa using hR0)
  intro i j hi1 hi2 hj1 hj2
  exact this.2 i j hi1 (by simpa using hi2) hj1 hj2

/-- The result of a call depends only on the two input sequences, not on
the matrix contents the call starts from. -/
theorem dlRun_pure (s1 s2 : List Char) (m m' : Mat) :
    (dlRun s1 s2 m).2 = (dlRun s1 s2 m').2 := by
  unfold dlRun
  by_cases h2 : s2.length = 0
  · simp [h2]
  by_cases h1 : s1.length = 0
  · simp [h1, h2]
  simp only [if_neg h1, if_neg h2]
  rw [fillAll_read s1 s2 m (by omega) (by omega) s2.length s1.length
      (by omega) (by omega) (by omega) (by omega),
    fillAll_read s1 s2 m' (by omega) (by omega) s2.length s1.length
      (by omega) (by omega) (by omega) (by omega)]

/-- The main branch of a call in terms of the pure recurrence. -/
theorem dlRun_main (s1 s2 : List Char) (m : Mat)
    (h1 : s1.length ≠ 0) (h2 : s2.length ≠ 0) :
    (dlRun s1 s2 m).2 =
      ⟨((dlMat s1 s2 s2.length s1.length : ℤ) : ℚ),
       1 - ((dlMat s1 s2 s2.length s1.length : ℤ) : ℚ) /
           ((max s1.length s2.length : ℕ) : ℚ)⟩ := by
  unfold dlRun
  simp only [if_neg h1, if_neg h2]
  rw [fillAll_read s1 s2 m (by omega) (by omega) s2.length s1.length
      (by omega) (by omega) (by omega) (by omega)]

theorem dlMat_nonneg (s1 s2 : List Char) :
    ∀ i j, 0 ≤ dlMat s1 s2 i j := by
  have key : ∀ (N i j : ℕ), i + j ≤ N → 0 ≤ dlMat s1 s2 i j := by
    intro N
    induction N with
    | zero =>
      intro i j h
      have hi : i = 0 := by omega
      have hj : j = 0 := by omega
      subst hi; subst hj
      rw [dlMat_zero_left]
      norm_num
    | succ N ih =>
      intro i j h
      match i, j with
      | 0, j => rw [dlMat_zero_left]; positivity
      | i+1, 0 => rw [dlMat_zero_right]; positivity
      | i+1, j+1 =>
        rw [dlMat_succ_succ]
        by_cases hc : charAt s2 i = charAt s1 j
        · rw [if_pos hc]
          exact ih i j (by omega)
        · rw [if_neg hc]
          have hv : (0:ℤ) ≤ min (dlMat s1 s2 i j + 1)
              (min (dlMat s1 s2 (i+1) j + 1) (dlMat s1 s2 i (j+1) + 1)) := by
            have b1 := ih i j (by omega)
            have b2 := ih (i+1) j (by omega)
            have b3 := ih i (j+1) (by omega)
            refine le_min (by linarith) (le_min (by linarith) (by linarith))
          by_cases ht : (0 < i ∧ 0 < j ∧ charAt s2 i = charAt s1 (j-1) ∧
              charAt s2 (i-1) = charAt s1 j ∧
              dlMat s1 s2 (i-1) (j-1) < min (dlMat s1 s2 i j + 1)
                (min (dlMat s1 s2 (i+1) j + 1) (dlMat s1 s2 i (j+1) + 1)))
          · simp only [if_pos ht]
            have := ih (i-1) (j-1) (by omega)
            linarith
          · simp only [if_neg ht]
            exact hv
  intro i j
  exact key (i + j) i j le_rfl

theorem dlMat_le_max (s1 s2 : List Char) :
    ∀ i j, dlMat s1 s2 i j ≤ max (i : ℤ) (j : ℤ) := by
  have key : ∀ (N i j : ℕ), i + j ≤ N →
      dlMat s1 s2 i j ≤ max (i : ℤ) (j : ℤ) := by
    intro N
    induction N with
    | zero =>
      intro i j h
      have hi : i = 0 := by omega
      have hj : j = 0 := by omega
      subst hi; subst hj
      rw [dlMat_zero_left]
      simp
    | succ N ih =>
      intro i j h
      match i, j with
      | 0, j =>
        rw [dlMat_zero_left]
        exact le_max_right _ _
      | i+1, 0 =>
        rw [dlMat_zero_right]
        push_cast
        exact le_max_left _ _
      | i+1, j+1 =>
        rw [dlMat_succ_succ]
        have hmax : max (i:ℤ) (j:ℤ) + 1 = max ((i:ℕ)+1 : ℤ) ((j:ℕ)+1 : ℤ) := by
          rw [max_add_add_right]
        by_cases hc : charAt s2 i = charAt s1 j
        · rw [if_pos hc]
          have := ih i j (by omega)
          have hle : max (i:ℤ) (j:ℤ) ≤ max ((i:ℤ)+1) ((j:ℤ)+1) :=
            max_le_max (by linarith) (by linarith)
          push_cast
          linarith [le_trans this hle]
        · rw [if_neg hc]
          have hv : min (dlMat s1 s2 i j + 1)
              (min (dlMat s1 s2 (i+1) j + 1) (dlMat s1 s2 i (j+1) + 1)) ≤
              dlMat s1 s2 i j + 1 := min_le_left _ _
          have hb := ih i j (by omega)
          have hs : max (i:ℤ) (j:ℤ) + 1 = max ((i:ℤ)+1) ((j:ℤ)+1) :=
            (max_add_add_right _ _ _).symm
          by_cases ht : (0 < i ∧ 0 < j ∧ charAt s2 i = charAt s1 (j-1) ∧
              charAt s2 (i-1) = charAt s1 j ∧
              dlMat s1 s2 (i-1) (j-1) < min (dlMat s1 s2 i j + 1)
                (min (dlMat s1 s2 (i+1) j + 1) (dlMat s1 s2 i (j+1) + 1)))
          · simp only [if_pos ht]
            have hlt := ht.2.2.2.2
            push_cast
            linarith
          · simp only [if_neg ht]
            push_cast
            linarith
  intro i j
  exact key (i + j) i j le_rfl

theorem dlRun_bounds (s1 s2 : List Char) (m : Mat) :
    (∃ d : ℕ, (dlRun s1 s2 m).2.distance = (d : ℚ) ∧
      d ≤ max s1.length s2.length) ∧
    0 ≤ (dlRun s1 s2 m).2.similarity ∧ (dlRun s1 s2 m).2.similarity ≤ 1 := by
  by_cases h2 : s2.length = 0
  · have : (dlRun s1 s2 m).2 = ⟨(s1.length : ℚ), 0⟩ := by
      unfold dlRun; rw [if_pos h2]
    rw [this]
    exact ⟨⟨s1.length, rfl, by omega⟩, le_rfl, by norm_num⟩
  by_cases h1 : s1.length = 0
  · have : (dlRun s1 s2 m).2 = ⟨(s2.length : ℚ), 0⟩ := by
      unfold dlRun; rw [if_neg h2, if_pos h1]
    rw [this]
    exact ⟨⟨s2.length, rfl, by omega⟩, le_rfl, by norm_num⟩
  rw [dlRun_main s1 s2 m h1 h2]
  have h0 := dlMat_nonneg s1 s2 s2.length s1.length
  have hm := dlMat_le_max s1 s2 s2.length s1.length
  have hmn : dlMat s1 s2 s2.length s1.length ≤ ((max s1.length s2.length : ℕ) : ℤ) := by
    rw [Nat.cast_max]
    rw [max_comm ((s1.length : ℤ)) ((s2.length : ℤ))]
    exact hm
  have hqpos : (0:ℚ) < ((max s1.length s2.length : ℕ) : ℚ) := by
    have : 1 ≤ max s1.length s2.length := by omega
    exact_mod_cast Nat.lt_of_lt_of_le Nat.zero_lt_one this
  have hq0 : (0:ℚ) ≤ ((dlMat s1 s2 s2.length s1.length : ℤ) : ℚ) := by
    exact_mod_cast h0
  have hqm : ((dlMat s1 s2 s2.length s1.length : ℤ) : ℚ) ≤
      ((max s1.length s2.length : ℕ) : ℚ) := by
    exact_mod_cast hmn
  refine ⟨⟨(dlMat s1 s2 s2.length s1.length).toNat, ?_, ?_⟩, ?_, ?_⟩
  · show ((dlMat s1 s2 s2.length s1.length : ℤ) : ℚ) = _
    rw [← Int.cast_natCast]
    rw [Int.toNat_of_nonneg h0]
  · have := Int.toNat_le_toNat hmn
    simpa using this
  · show (0:ℚ) ≤ 1 - _ / _
    have hdle : ((dlMat s1 s2 s2.length s1.length : ℤ) : ℚ) /
        ((max s1.length s2.length : ℕ) : ℚ) ≤ 1 :=
      (div_le_one hqpos).mpr hqm
    linarith
  · show (1:ℚ) - _ / _ ≤ 1
    have hdge : (0:ℚ) ≤ ((dlMat s1 s2 s2.length s1.length : ℤ) : ℚ) /
        ((max s1.length s2.length : ℕ) : ℚ) :=
      div_nonneg hq0 (le_of_lt hqpos)
    linarith

/-- C1: the spec's concrete example claims `distance("ca","abc") = 2`, but
the engine's transposition rule is the restricted (optimal string
alignment) one, which yields 3 on this pair. -/
theorem claim1_counterexample :
    (engineDistance (createDLFunction (some 5)) ['c','a'] ['a','b','c']).2.distance = 3 ∧
    (engineDistance (createDLFunction (some 5)) ['c','a'] ['a','b','c']).2.distance ≠ 2 := by
  decide

/-- C1 (amended): for every edit-distance engine whose capacity is at
least 5, in any matrix state, `distance("ca","abc")` returns distance 3
(the optimal-string-alignment value), not 2. -/
theorem claim1_theorem (e : DLEngine) (_h : 5 ≤ e.maxLen) :
    (engineDistance e ['c','a'] ['a','b','c']).2.distance = 3 := by
  show (dlRun ['c','a'] ['a','b','c'] e.matrix).2.distance = 3
  rw [dlRun_pure ['c','a'] ['a','b','c'] e.matrix (fun _ _ => 0)]
  decide

theorem claim1_witness :
    5 ≤ (createDLFunction (some 5)).maxLen ∧
    (engineDistance (createDLFunction (some 5)) ['c','a'] ['a','b','c']).2.distance = 3 :=
  ⟨by decide, claim1_theorem (createDLFunction (some 5)) (by decide)⟩

/-- C2: the triangle inequality fails for the engine: with one engine of
capacity 5 threaded through the three calls, `d("ca","abc") = 3` exceeds
`d("ca","ac") + d("ac","abc") = 1 + 1`. -/
theorem claim2_counterexample :
    ¬ ((engineDistance (createDLFunction (some 5)) ['c','a'] ['a','b','c']).2.distance ≤
       (engineDistance ((engineDistance (createDLFunction (some 5)) ['c','a'] ['a','b','c']).1)
          ['c','a'] ['a','c']).2.distance +
       (engineDistance ((engineDistance ((engineDistance (createDLFunction (some 5))
          ['c','a'] ['a','b','c']).1) ['c','a'] ['a','c']).1)
          ['a','c'] ['a','b','c']).2.distance) := by
  have h1 : (engineDistance (createDLFunction (some 5)) ['c','a'] ['a','b','c']).2.distance = 3 := by
    decide
  have h2 : (engineDistance ((engineDistance (createDLFunction (some 5)) ['c','a'] ['a','b','c']).1)
      ['c','a'] ['a','c']).2.distance = 1 := by
    decide
  have h3 : (engineDistance ((engineDistance ((engineDistance (createDLFunction (some 5))
      ['c','a'] ['a','b','c']).1) ['c','a'] ['a','c']).1)
      ['a','c'] ['a','b','c']).2.distance = 1 := by
    decide
  rw [h1, h2, h3]
  norm_num

/-- C2 (amended): the triangle inequality `d(s1,s2) ≤ d(s1,s3) + d(s3,s2)`
does not hold for arbitrary `s3` (see the counterexample); it does hold
when the intermediate sequence is empty, for all in-capacity inputs:
`d(s1,s2) ≤ d(s1,"") + d("",s2)`. -/
theorem claim2_theorem (e : DLEngine) (s1 s2 : List Char)
    (_hc1 : s1.length ≤ e.maxLen) (_hc2 : s2.length ≤ e.maxLen) :
    (engineDistance e s1 s2).2.distance ≤
      (engineDistance e s1 []).2.distance +
      (engineDistance e [] s2).2.distance := by
  show (dlRun s1 s2 e.matrix).2.distance ≤
    (dlRun s1 [] e.matrix).2.distance + (dlRun [] s2 e.matrix).2.distance
  have hA : (dlRun s1 [] e.matrix).2.distance = (s1.length : ℚ) := by
    unfold dlRun; simp
  have hB : (dlRun [] s2 e.matrix).2.distance = (s2.length : ℚ) := by
    unfold dlRun
    by_cases h : s2.length = 0
    · simp [h]
    · simp [h]
  rw [hA, hB]
  by_cases h2 : s2.length = 0
  · unfold dlRun
    rw [if_pos h2]
    show (s1.length : ℚ) ≤ _
    have : (s2.length : ℚ) = 0 := by exact_mod_cast h2
    linarith
  by_cases h1 : s1.length = 0
  · unfold dlRun
    rw [if_neg h2, if_pos h1]
    show (s2.length : ℚ) ≤ _
    have : (s1.length : ℚ) = 0 := by exact_mod_cast h1
    linarith
  · rw [dlRun_main s1 s2 e.matrix h1 h2]
    show ((dlMat s1 s2 s2.length s1.length : ℤ) : ℚ) ≤ _
    have hm := dlMat_le_max s1 s2 s2.length s1.length
    have hZ : dlMat s1 s2 s2.length s1.length ≤ (s1.length : ℤ) + s2.length := by
      have hx : max ((s2.length : ℤ)) ((s1.length : ℤ)) ≤ (s1.length : ℤ) + s2.length := by
        apply max_le
        · have : (0:ℤ) ≤ s1.length := by positivity
          linarith
        · have : (0:ℤ) ≤ s2.length := by positivity
          linarith
      linarith
    exact_mod_cast hZ

theorem claim2_witness :
    (['a'].length ≤ (createDLFunction (some 5)).maxLen ∧
      ['b','c'].length ≤ (createDLFunction (some 5)).maxLen) ∧
    (engineDistance (createDLFunction (some 5)) ['a'] ['b','c']).2.distance ≤
      (engineDistance (createDLFunction (some 5)) ['a'] []).2.distance +
      (engineDistance (createDLFunction (some 5)) [] ['b','c']).2.distance :=
  ⟨⟨by decide, by decide⟩,
    claim2_theorem (createDLFunction (some 5)) ['a'] ['b','c'] (by decide) (by decide)⟩

/-- C3: one adjacent transposition counts as a single edit: for every
engine with capacity at least 2, in any matrix state,
`distance("ab","ba")` returns distance 1. -/
theorem claim3_theorem (e : DLEngine) (_h : 2 ≤ e.maxLen) :
    (engineDistance e ['a','b'] ['b','a']).2.distance = 1 := by
  show (dlRun ['a','b'] ['b','a'] e.matrix).2.distance = 1
  rw [dlRun_pure ['a','b'] ['b','a'] e.matrix (fun _ _ => 0)]
  decide

theorem claim3_witness :
    2 ≤ (createDLFunction (some 5)).maxLen ∧
    (engineDistance (createDLFunction (some 5)) ['a','b'] ['b','a']).2.distance = 1 :=
  ⟨by decide, claim3_theorem (createDLFunction (some 5)) (by decide)⟩

/-- C4: zero-length short-circuit: if either input is empty the result is
the other input's length as distance with similarity 0; in particular
two empty inputs give distance 0 and similarity 0. -/
theorem claim4_theorem (e : DLEngine) (s1 s2 : List Char) :
    (s2 = [] → (engineDistance e s1 s2).2 = ⟨(s1.length : ℚ), 0⟩) ∧
    (s1 = [] → (engineDistance e s1 s2).2 = ⟨(s2.length : ℚ), 0⟩) := by
  constructor
  · rintro rfl
    show (dlRun s1 [] e.matrix).2 = _
    unfold dlRun
    simp
  · rintro rfl
    show (dlRun [] s2 e.matrix).2 = _
    unfold dlRun
    by_cases h : s2.length = 0
    · rw [if_pos h]
      have hq : (s2.length : ℚ) = 0 := by exact_mod_cast h
      simp [hq]
    · rw [if_neg h]
      simp

theorem claim4_witness :
    (engineDistance (createDLFunction none) ['x'] []).2 = ⟨(['x'].length : ℚ), 0⟩ :=
  (claim4_theorem (createDLFunction none) ['x'] []).1 rfl

/-- C9: for in-capacity inputs the returned distance is a non-negative
integer bounded by the longer input's length, and the returned
similarity lies in `[0,1]`. -/
theorem claim9_theorem (e : DLEngine) (s1 s2 : List Char)
    (_hc1 : s1.length ≤ e.maxLen) (_hc2 : s2.length ≤ e.maxLen) :
    (∃ d : ℕ, (engineDistance e s1 s2).2.distance = (d : ℚ) ∧
      d ≤ max s1.length s2.length) ∧
    0 ≤ (engineDistance e s1 s2).2.similarity ∧
    (engineDistance e s1 s2).2.similarity ≤ 1 :=
  dlRun_bounds s1 s2 e.matrix

theorem claim9_witness :
    (['a','b'].length ≤ (createDLFunction (some 5)).maxLen ∧
      ['c'].length ≤ (createDLFunction (some 5)).maxLen) ∧
    ((∃ d : ℕ,
      (engineDistance (createDLFunction (some 5)) ['a','b'] ['c']).2.distance = (d : ℚ) ∧
      d ≤ max (['a','b'].length) (['c'].length)) ∧
    0 ≤ (engineDistance (createDLFunction (some 5)) ['a','b'] ['c']).2.similarity ∧
    (engineDistance (createDLFunction (some 5)) ['a','b'] ['c']).2.similarity ≤ 1) :=
  ⟨⟨by decide, by decide⟩,
    claim9_theorem (createDLFunction (some 5)) ['a','b'] ['c'] (by decide) (by decide)⟩

/-- C10: observational purity of the cached engine: for in-capacity
inputs the returned result depends only on the two inputs, not on the
matrix state left behind by any previous calls. -/
theorem claim10_theorem (mx : ℕ) (m m' : Mat) (s1 s2 : List Char)
    (_hc1 : s1.length ≤ mx) (_hc2 : s2.length ≤ mx) :
    (engineDistance ⟨mx, m⟩ s1 s2).2 = (engineDistance ⟨mx, m'⟩ s1 s2).2 :=
  dlRun_pure s1 s2 m m'

theorem claim10_witness :
    (['a','b'].length ≤ 5 ∧ ['b','a'].length ≤ 5) ∧
    (engineDistance ⟨5, fun _ _ => 0⟩ ['a','b'] ['b','a']).2 =
      (engineDistance ⟨5, fun _ _ => 37⟩ ['a','b'] ['b','a']).2 :=
  ⟨⟨by decide, by decide⟩,
    claim10_theorem 5 (fun _ _ => 0) (fun _ _ => 37) ['a','b'] ['b','a']
      (by decide) (by decide)⟩

/-- C5: when the inputs differ and the base Jaro similarity reaches the
normalized boost threshold, `jaroWinkler` returns the boosted similarity
`base + l*sf*(1-base)` and distance `1 -` that value, with `l` the
common-prefix length capped at 4 and at the shorter length, `sf` the
scaling factor after defaulting to 0.1, absolute value, and the 0.25
cap, and the threshold after defaulting to 0.7, absolute value, and the
cap at 1. -/
theorem claim5_theorem (jaroFn : List Char → List Char → SimResult ℚ)
    (s1 s2 : List Char) (scalingFactor boostThreshold : Option ℚ)
    (hne : s1 ≠ s2)
    (hbt : min |boostThreshold.getD (7/10)| 1 ≤ (jaroFn s1 s2).similarity) :
    jaroWinkler jaroFn s1 s2 scalingFactor boostThreshold =
      ⟨1 - ((jaroFn s1 s2).similarity +
        ((min (commonLead s1 s2) (min 4 (min s1.length s2.length)) : ℕ) : ℚ) *
          min |scalingFactor.getD (1/10)| (1/4) *
          (1 - (jaroFn s1 s2).similarity)),
       (jaroFn s1 s2).similarity +
        ((min (commonLead s1 s2) (min 4 (min s1.length s2.length)) : ℕ) : ℚ) *
          min |scalingFactor.getD (1/10)| (1/4) *
          (1 - (jaroFn s1 s2).similarity)⟩ := by
  have hnl : ¬ ((jaroFn s1 s2).similarity <
      min |boostThreshold.getD (7/10)| 1) := not_lt.mpr hbt
  simp only [jaroWinkler, if_neg hne, if_neg hnl]
  have hlead : jwLead s1 s2 0 (min s1.length (min s2.length 4)) =
      min (commonLead s1 s2) (min s1.length (min s2.length 4)) :=
    jwLead_eq_commonLead (min s1.length (min s2.length 4)) s1 s2
      (by omega) (by omega)
  rw [hlead]
  have hmm : min s1.length (min s2.length 4) = min 4 (min s1.length s2.length) := by
    omega
  rw [hmm]

theorem claim5_witness :
    ((['a','b'] : List Char) ≠ ['a','c'] ∧
      min |(none : Option ℚ).getD (7/10)| 1 ≤
        ((fun (_ _ : List Char) => (⟨1/5, 4/5⟩ : SimResult ℚ)) ['a','b'] ['a','c']).similarity) ∧
    jaroWinkler (fun (_ _ : List Char) => (⟨1/5, 4/5⟩ : SimResult ℚ))
        ['a','b'] ['a','c'] none none =
      ⟨1 - (((fun (_ _ : List Char) => (⟨1/5, 4/5⟩ : SimResult ℚ)) ['a','b'] ['a','c']).similarity +
        ((min (commonLead ['a','b'] ['a','c'])
            (min 4 (min (['a','b'] : List Char).length (['a','c'] : List Char).length)) : ℕ) : ℚ) *
          min |(none : Option ℚ).getD (1/10)| (1/4) *
          (1 - ((fun (_ _ : List Char) => (⟨1/5, 4/5⟩ : SimResult ℚ)) ['a','b'] ['a','c']).similarity)),
       ((fun (_ _ : List Char) => (⟨1/5, 4/5⟩ : SimResult ℚ)) ['a','b'] ['a','c']).similarity +
        ((min (commonLead ['a','b'] ['a','c'])
            (min 4 (min (['a','b'] : List Char).length (['a','c'] : List Char).length)) : ℕ) : ℚ) *
          min |(none : Option ℚ).getD (1/10)| (1/4) *
          (1 - ((fun (_ _ : List Char) => (⟨1/5, 4/5⟩ : SimResult ℚ)) ['a','b'] ['a','c']).similarity)⟩ :=
  ⟨⟨by decide, by norm_num [abs_of_nonneg]⟩,
    claim5_theorem (fun _ _ => ⟨1/5, 4/5⟩) ['a','b'] ['a','c'] none none
      (by decide) (by norm_num [abs_of_nonneg])⟩

/-- C6: under the collaborator contract that the base Jaro similarity
lies in `[0,1]`, the similarity returned by `jaroWinkler` is at least
the base Jaro similarity for every input pair and parameter choice. -/
theorem claim6_theorem (jaroFn : List Char → List Char → SimResult ℚ)
    (s1 s2 : List Char) (scalingFactor boostThreshold : Option ℚ)
    (_h0 : 0 ≤ (jaroFn s1 s2).similarity)
    (h1 : (jaroFn s1 s2).similarity ≤ 1) :
    (jaroFn s1 s2).similarity ≤
      (jaroWinkler jaroFn s1 s2 scalingFactor boostThreshold).similarity := by
  simp only [jaroWinkler]
  split_ifs with he hlt
  · exact h1
  · exact le_rfl
  · have hsf : (0:ℚ) ≤ min |scalingFactor.getD (1/10)| (1/4) :=
      le_min (abs_nonneg _) (by norm_num)
    have hl : (0:ℚ) ≤ ((jwLead s1 s2 0 (min s1.length (min s2.length 4)) : ℕ) : ℚ) := by
      positivity
    have hmul : (0:ℚ) ≤
        ((jwLead s1 s2 0 (min s1.length (min s2.length 4)) : ℕ) : ℚ) *
          min |scalingFactor.getD (1/10)| (1/4) *
          (1 - (jaroFn s1 s2).similarity) :=
      mul_nonneg (mul_nonneg hl hsf) (by linarith)
    linarith

theorem claim6_witness :
    (0 ≤ ((fun (_ _ : List Char) => (⟨1/5, 4/5⟩ : SimResult ℚ)) ['a','b'] ['a','c']).similarity ∧
      ((fun (_ _ : List Char) => (⟨1/5, 4/5⟩ : SimResult ℚ)) ['a','b'] ['a','c']).similarity ≤ 1) ∧
    ((fun (_ _ : List Char) => (⟨1/5, 4/5⟩ : SimResult ℚ)) ['a','b'] ['a','c']).similarity ≤
      (jaroWinkler (fun (_ _ : List Char) => (⟨1/5, 4/5⟩ : SimResult ℚ))
        ['a','b'] ['a','c'] none none).similarity :=
  ⟨⟨by norm_num, by norm_num⟩,
    claim6_theorem (fun _ _ => ⟨1/5, 4/5⟩) ['a','b'] ['a','c'] none none
      (by norm_num) (by norm_num)⟩

/-- C7: `tversky` with `alpha = beta = 1` coincides with `jaccard`, and
with both parameters omitted it coincides with explicit
`alpha = beta = 0.5` (the Dice coefficient). -/
theorem claim7_theorem {α : Type} [DecidableEq α] (A B : Finset α)
    (_h : A ≠ ∅ ∨ B ≠ ∅) :
    tversky A B (some 1) (some 1) = jaccard A B ∧
    tversky A B none none = tversky A B (some (1/2)) (some (1/2)) := by
  constructor
  · simp only [tversky, jaccard, Option.getD]
    have hden : (intersectSize A B : ℚ) +
        1 * ((A.card : ℚ) - (intersectSize A B : ℚ)) +
        1 * ((B.card : ℚ) - (intersectSize A B : ℚ)) =
        (A.card : ℚ) + (B.card : ℚ) - (intersectSize A B : ℚ) := by
      ring
    rw [hden]
  · rfl

theorem claim7_witness :
    (({1,2,3} : Finset ℕ) ≠ ∅ ∨ ({2,3,4} : Finset ℕ) ≠ ∅) ∧
    (tversky ({1,2,3} : Finset ℕ) ({2,3,4} : Finset ℕ) (some 1) (some 1) =
        jaccard ({1,2,3} : Finset ℕ) ({2,3,4} : Finset ℕ) ∧
      tversky ({1,2,3} : Finset ℕ) ({2,3,4} : Finset ℕ) none none =
        tversky ({1,2,3} : Finset ℕ) ({2,3,4} : Finset ℕ) (some (1/2)) (some (1/2))) :=
  ⟨Or.inl (by decide),
    claim7_theorem ({1,2,3} : Finset ℕ) ({2,3,4} : Finset ℕ) (Or.inl (by decide))⟩

/-! ### Bag-of-words cosine

A JavaScript object used as a sparse vector is modelled as an
association list with pairwise-distinct keys.  Property assignment
`o[w] = v` is `setKey`, property read `o[w]` is `lookup?`, and
`for w in o` iterates the entries in insertion order. -/

/-- Property read `o[w]`: `none` models `undefined`. -/
def lookup? (l : List (String × ℚ)) (w : String) : Option ℚ :=
  (l.find? (fun p => p.1 == w)).map Prod.snd

/-- The keys of an association list, in insertion order. -/
def keyList (l : List (String × ℚ)) : List String := l.map Prod.fst

/-- Property assignment `o[w] = v`: overwrite in place if the key is
present, append otherwise (JavaScript insertion order). -/
def setKey (l : List (String × ℚ)) (w : String) (v : ℚ) : List (String × ℚ) :=
  if w ∈ keyList l then l.map (fun p => if p.1 == w then (w, v) else p)
  else l ++ [(w, v)]

/-- JavaScript `x || 0` applied to a property read: `undefined` and `0`
both give `0`, any other number gives itself. -/
def jsOr0 : Option ℚ → ℚ
  | none => 0
  | some v => if v = 0 then 0 else v

/-- A sparse bag-of-words vector: a JavaScript object mapping tokens to
numeric weights, hence distinct keys. -/
structure SparseVec where
  entries : List (String × ℚ)
  nodupKeys : (entries.map Prod.fst).Nodup

/-- The two copy loops of `cosine`: build `ab` (`a` extended with `b`'s
missing words as 0) and `ba` (`b` extended with `a`'s missing words
as 0), without mutating `a` or `b`. -/
def bowPair (a b : SparseVec) : List (String × ℚ) × List (String × ℚ) :=
  b.entries.foldl
    (fun acc p =>
      (setKey acc.1 p.1 (jsOr0 (lookup? acc.1 p.1)), setKey acc.2 p.1 p.2))
    (a.entries, a.entries.map (fun p => (p.1, (0:ℚ))))

/-- The single accumulation pass of `cosine` over the words of `ab`:
returns `(Σ va², Σ vb², Σ va·vb)`. -/
def bowSums (ab ba : List (String × ℚ)) : ℚ × ℚ × ℚ :=
  ab.foldl
    (fun acc p =>
      (acc.1 + p.2 * p.2,
       acc.2.1 + (lookup? ba p.1).getD 0 * (lookup? ba p.1).getD 0,
       acc.2.2 + p.2 * (lookup? ba p.1).getD 0))
    (0, 0, 0)

/-- Embeds `similarity.bow.cosine`.  The guard `sa2 && sb2` of the
source is the conjunction of the two sums being non-zero. -/
noncomputable def cosine (a b : SparseVec) : SimResult ℝ :=
  let pr := bowPair a b
  let s := bowSums pr.1 pr.2
  let smlrty : ℝ :=
    if s.1 ≠ 0 ∧ s.2.1 ≠ 0 then
      ((s.2.2 : ℚ) : ℝ) / (Real.sqrt ((s.1 : ℚ) : ℝ) * Real.sqrt ((s.2.1 : ℚ) : ℝ))
    else 0
  ⟨1 - smlrty, smlrty⟩

/-- The weight of a token in a vector; absent keys weigh 0 (spec-side). -/
def val (v : SparseVec) (w : String) : ℚ := (lookup? v.entries w).getD 0

/-- The set of tokens present in a vector (spec-side). -/
def support (v : SparseVec) : Finset String := (v.entries.map Prod.fst).toFinset

/-- Spec-side `Σ aᵢ²` over the union of the two vocabularies. -/
def sumA2 (a b : SparseVec) : ℚ :=
  ∑ w ∈ support a ∪ support b, val a w * val a w

/-- Spec-side `Σ bᵢ²` over the union of the two vocabularies. -/
def sumB2 (a b : SparseVec) : ℚ :=
  ∑ w ∈ support a ∪ support b, val b w * val b w

/-- Spec-side `Σ aᵢ·bᵢ` over the union of the two vocabularies. -/
def sumAB (a b : SparseVec) : ℚ :=
  ∑ w ∈ support a ∪ support b, val a w * val b w

theorem lookup?_eq_none (l : List (String × ℚ)) (w : String)
    (h : w ∉ keyList l) : lookup? l w = none := by
  unfold lookup?
  rw [List.find?_eq_none.mpr]
  · rfl
  · intro p hp
    simp only [beq_iff_eq]
    intro hcon
    apply h
    show w ∈ List.map Prod.fst l
    exact List.mem_map.mpr ⟨p, hp, hcon⟩

theorem lookup?_isSome (l : List (String × ℚ)) (w : String)
    (h : w ∈ keyList l) : ∃ v, lookup? l w = some v := by
  induction l with
  | nil => simp [keyList] at h
  | cons p l ih =>
    by_cases hw : p.1 = w
    · refine ⟨p.2, ?_⟩
      unfold lookup?
      rw [List.find?_cons_of_pos _ (by simp [hw])]
      rfl
    · have hmem : w ∈ keyList l := by
        have h' : w ∈ List.map Prod.fst (p :: l) := h
        rw [List.map_cons, List.mem_cons] at h'
        rcases h' with h' | h'
        · exact absurd h'.symm hw
        · exact h'
      obtain ⟨v, hv⟩ := ih hmem
      refine ⟨v, ?_⟩
      unfold lookup? at hv ⊢
      rw [List.find?_cons_of_neg _ (by simp [hw])]
      exact hv

theorem lookup?_of_mem_nodup (l : List (String × ℚ)) (p : String × ℚ)
    (hnd : (l.map Prod.fst).Nodup) (hp : p ∈ l) :
    lookup? l p.1 = some p.2 := by
  induction l with
  | nil => simp at hp
  | cons q l ih =>
    rcases List.mem_cons.mp hp with rfl | hp'
    · unfold lookup?
      rw [List.find?_cons_of_pos _ (by simp)]
      rfl
    · have hq : q.1 ≠ p.1 := by
        intro hcon
        have : q.1 ∈ l.map Prod.fst := by
          rw [hcon]
          exact List.mem_map.mpr ⟨p, hp', rfl⟩
        exact (List.nodup_cons.mp hnd).1 this
      unfold lookup?
      rw [List.find?_cons_of_neg _ (by simp [hq])]
      exact ih (List.nodup_cons.mp hnd).2 hp'

theorem jsOr0_some (v : ℚ) : jsOr0 (some v) = v := by
  unfold jsOr0
  by_cases h : v = 0
  · simp [h]
  · simp [h]

theorem keyList_setKey_mem (l : List (String × ℚ)) (w : String) (v : ℚ)
    (h : w ∈ keyList l) : keyList (setKey l w v) = keyList l := by
  unfold setKey
  rw [if_pos h]
  unfold keyList
  rw [List.map_map]
  apply List.map_congr_left
  intro p _
  by_cases hp : p.1 = w
  · simp [hp]
  · simp [hp]

theorem keyList_setKey_notMem (l : List (String × ℚ)) (w : String) (v : ℚ)
    (h : w ∉ keyList l) : keyList (setKey l w v) = keyList l ++ [w] := by
  unfold setKey
  rw [if_neg h]
  unfold keyList
  rw [List.map_append]
  rfl

theorem lookup?_setKey_self (l : List (String × ℚ)) (w : String) (v : ℚ) :
    lookup? (setKey l w v) w = some v := by
  unfold setKey
  by_cases h : w ∈ keyList l
  · rw [if_pos h]
    induction l with
    | nil => simp [keyList] at h
    | cons q l ih =>
      by_cases hq : q.1 = w
      · unfold lookup?
        rw [List.map_cons, if_pos (by simp [hq]),
          List.find?_cons_of_pos _ (by simp)]
        rfl
      · have hmem : w ∈ keyList l := by
          have h' : w ∈ List.map Prod.fst (q :: l) := h
          rw [List.map_cons, List.mem_cons] at h'
          rcases h' with h' | h'
          · exact absurd h'.symm hq
          · exact h'
        unfold lookup? at ih ⊢
        rw [List.map_cons, if_neg (by simp [hq]),
          List.find?_cons_of_neg _ (by simp [hq])]
        exact ih hmem
  · rw [if_neg h]
    unfold lookup?
    have hnone : l.find? (fun p => p.1 == w) = none := by
      have := lookup?_eq_none l w h
      unfold lookup? at this
      cases hf : l.find? (fun p => p.1 == w)
      · rfl
      · rw [hf] at this
        simp at this
    rw [List.find?_append, hnone]
    simp

theorem lookup?_map_replace (l : List (String × ℚ)) (w u : String) (v : ℚ)
    (h : u ≠ w) :
    lookup? (l.map (fun p => if p.1 == w then (w, v) else p)) u =
      lookup? l u := by
  induction l with
  | nil => rfl
  | cons q l ih =>
    rw [List.map_cons]
    by_cases hq : q.1 = w
    · unfold lookup?
      rw [if_pos (by simp [hq]),
        List.find?_cons_of_neg _
          (by simp only [beq_iff_eq]; exact fun hc => h hc.symm),
        List.find?_cons_of_neg _
          (by simp only [beq_iff_eq, hq]; exact fun hc => h hc.symm)]
      exact ih
    · unfold lookup?
      rw [if_neg (by simp [hq])]
      by_cases hu : q.1 = u
      · rw [List.find?_cons_of_pos _ (by simp [hu]),
          List.find?_cons_of_pos _ (by simp [hu])]
      · rw [List.find?_cons_of_neg _ (by simp [hu]),
          List.find?_cons_of_neg _ (by simp [hu])]
        exact ih

theorem lookup?_setKey_other (l : List (String × ℚ)) (w u : String) (v : ℚ)
    (h : u ≠ w) : lookup? (setKey l w v) u = lookup? l u := by
  unfold setKey
  by_cases hm : w ∈ keyList l
  · rw [if_pos hm]
    exact lookup?_map_replace l w u v h
  · rw [if_neg hm]
    unfold lookup?
    rw [List.find?_append]
    cases hf : l.find? (fun p => p.1 == u) with
    | none =>
      rw [List.find?_cons_of_neg _
        (by simp only [beq_iff_eq]; exact fun hc => h hc.symm)]
      rfl
    | some q => rfl

theorem lookup?_mapZero (l : List (String × ℚ)) (w : String)
    (h : w ∈ keyList l) :
    lookup? (l.map (fun p => (p.1, (0:ℚ)))) w = some 0 := by
  induction l with
  | nil => simp [keyList] at h
  | cons q l ih =>
    rw [List.map_cons]
    by_cases hq : q.1 = w
    · unfold lookup?
      rw [List.find?_cons_of_pos _ (by simp [hq])]
      rfl
    · have hmem : w ∈ keyList l := by
        have h' : w ∈ List.map Prod.fst (q :: l) := h
        rw [List.map_cons, List.mem_cons] at h'
        rcases h' with h' | h'
        · exact absurd h'.symm hq
        · exact h'
      unfold lookup? at ih ⊢
      rw [List.find?_cons_of_neg _ (by simp [hq])]
      exact ih hmem

theorem keyList_append (l1 l2 : List (String × ℚ)) :
    keyList (l1 ++ l2) = keyList l1 ++ keyList l2 :=
  List.map_append _ _ _

/-- The fold body of the two copy loops of `cosine`
(`ba[w] = b[w]; ab[w] = ab[w] || 0`, over a word `w = p.1` of `b`). -/
def bowStep (acc : List (String × ℚ) × List (String × ℚ)) (p : String × ℚ) :
    List (String × ℚ) × List (String × ℚ) :=
  (setKey acc.1 p.1 (jsOr0 (lookup? acc.1 p.1)), setKey acc.2 p.1 p.2)

theorem bowPair_eq_foldl (a b : SparseVec) :
    bowPair a b =
      b.entries.foldl bowStep
        (a.entries, a.entries.map (fun p => (p.1, (0:ℚ)))) := rfl

theorem bow_inv (a b : SparseVec) :
    ∀ (rest done ab ba : List (String × ℚ)),
      b.entries = done ++ rest →
      keyList ba = keyList ab →
      (keyList ab).Nodup →
      (∀ w, w ∈ keyList ab ↔ w ∈ keyList a.entries ∨ w ∈ keyList done) →
      (∀ w, w ∈ keyList ab → lookup? ab w = some (val a w)) →
      (∀ w, w ∈ keyList ba →
        lookup? ba w = some (if w ∈ keyList done then val b w else 0)) →
      keyList (rest.foldl bowStep (ab, ba)).2 =
        keyList (rest.foldl bowStep (ab, ba)).1 ∧
      (keyList (rest.foldl bowStep (ab, ba)).1).Nodup ∧
      (∀ w, w ∈ keyList (rest.foldl bowStep (ab, ba)).1 ↔
        w ∈ keyList a.entries ∨ w ∈ keyList b.entries) ∧
      (∀ w, w ∈ keyList (rest.foldl bowStep (ab, ba)).1 →
        lookup? (rest.foldl bowStep (ab, ba)).1 w = some (val a w)) ∧
      (∀ w, w ∈ keyList (rest.foldl bowStep (ab, ba)).2 →
        lookup? (rest.foldl bowStep (ab, ba)).2 w = some (val b w)) := by
  intro rest
  induction rest with
  | nil =>
    intro done ab ba hsplit hk hnd hiff hA hB
    rw [List.append_nil] at hsplit
    subst hsplit
    simp only [List.foldl_nil]
    refine ⟨hk, hnd, hiff, hA, ?_⟩
    intro w hw
    rw [hB w hw]
    by_cases hmem : w ∈ keyList b.entries
    · rw [if_pos hmem]
    · rw [if_neg hmem]
      unfold val
      rw [lookup?_eq_none b.entries w hmem]
      rfl
  | cons p rest ih =>
    intro done ab ba hsplit hk hnd hiff hA hB
    rw [List.foldl_cons]
    have hsplit' : b.entries = (done ++ [p]) ++ rest := by
      rw [hsplit, List.append_assoc]
      rfl
    have hpb : p ∈ b.entries := by
      rw [hsplit]
      exact List.mem_append.mpr (Or.inr (List.mem_cons_self p rest))
    have hvb : val b p.1 = p.2 := by
      unfold val
      rw [lookup?_of_mem_nodup b.entries p b.nodupKeys hpb]
      rfl
    have hkdone' : keyList (done ++ [p]) = keyList done ++ [p.1] := by
      rw [keyList_append]
      rfl
    show (keyList (rest.foldl bowStep (bowStep (ab, ba) p)).2 = _) ∧ _
    have hstep : bowStep (ab, ba) p =
        (setKey ab p.1 (jsOr0 (lookup? ab p.1)), setKey ba p.1 p.2) := rfl
    rw [hstep]
    -- membership of the written key transfers along `hk`
    have hkba : p.1 ∈ keyList ba ↔ p.1 ∈ keyList ab := by rw [hk]
    by_cases hmem : p.1 ∈ keyList ab
    · -- key already present: both lists keep their key lists
      have hka : keyList (setKey ab p.1 (jsOr0 (lookup? ab p.1))) = keyList ab :=
        keyList_setKey_mem ab p.1 _ hmem
      have hkb : keyList (setKey ba p.1 p.2) = keyList ba :=
        keyList_setKey_mem ba p.1 _ (hkba.mpr hmem)
      apply ih (done ++ [p])
      · exact hsplit'
      · rw [hka, hkb, hk]
      · rw [hka]; exact hnd
      · intro w
        rw [hka, hkdone', hiff w]
        constructor
        · rintro (h | h)
          · exact Or.inl h
          · exact Or.inr (List.mem_append.mpr (Or.inl h))
        · rintro (h | h)
          · exact Or.inl h
          · rcases List.mem_append.mp h with h | h
            · exact Or.inr h
            · rw [List.mem_singleton] at h
              subst h
              exact (hiff p.1).mp hmem
      · intro w hw
        rw [hka] at hw
        by_cases hwp : w = p.1
        · subst hwp
          rw [lookup?_setKey_self, hA p.1 hmem, jsOr0_some]
        · rw [lookup?_setKey_other ab p.1 w _ hwp]
          exact hA w hw
      · intro w hw
        rw [hkb] at hw
        by_cases hwp : w = p.1
        · subst hwp
          rw [lookup?_setKey_self]
          have hin : p.1 ∈ keyList (done ++ [p]) := by
            rw [hkdone']
            exact List.mem_append.mpr (Or.inr (List.mem_singleton.mpr rfl))
          rw [if_pos hin, hvb]
        · rw [lookup?_setKey_other ba p.1 w _ hwp, hB w hw]
          have hcond : w ∈ keyList (done ++ [p]) ↔ w ∈ keyList done := by
            rw [hkdone', List.mem_append, List.mem_singleton]
            constructor
            · rintro (h | h)
              · exact h
              · exact absurd h hwp
            · exact Or.inl
          by_cases hd : w ∈ keyList done
          · rw [if_pos hd, if_pos (hcond.mpr hd)]
          · rw [if_neg hd, if_neg (fun hc => hd (hcond.mp hc))]
    · -- key absent: both lists append it
      have hka : keyList (setKey ab p.1 (jsOr0 (lookup? ab p.1))) =
          keyList ab ++ [p.1] :=
        keyList_setKey_notMem ab p.1 _ hmem
      have hkb : keyList (setKey ba p.1 p.2) = keyList ba ++ [p.1] :=
        keyList_setKey_notMem ba p.1 _ (fun hc => hmem (hkba.mp hc))
      have hpa : p.1 ∉ keyList a.entries :=
        fun hc => hmem ((hiff p.1).mpr (Or.inl hc))
      apply ih (done ++ [p])
      · exact hsplit'
      · rw [hka, hkb, hk]
      · rw [hka]
        exact List.Nodup.append hnd (List.nodup_singleton _)
          (fun x hx hy => hmem (List.mem_singleton.mp hy ▸ hx))
      · intro w
        rw [hka, hkdone', List.mem_append, List.mem_singleton, hiff w,
          List.mem_append, List.mem_singleton]
        tauto
      · intro w hw
        rw [hka, List.mem_append, List.mem_singleton] at hw
        by_cases hwp : w = p.1
        · subst hwp
          rw [lookup?_setKey_self, lookup?_eq_none ab p.1 hmem]
          have hva0 : val a p.1 = 0 := by
            unfold val
            rw [lookup?_eq_none a.entries p.1 hpa]
            rfl
          rw [hva0]
          rfl
        · rcases hw with hw | hw
          · rw [lookup?_setKey_other ab p.1 w _ hwp]
            exact hA w hw
          · exact absurd hw hwp
      · intro w hw
        rw [hkb, List.mem_append, List.mem_singleton] at hw
        by_cases hwp : w = p.1
        · subst hwp
          rw [lookup?_setKey_self]
          have hin : p.1 ∈ keyList (done ++ [p]) := by
            rw [hkdone']
            exact List.mem_append.mpr (Or.inr (List.mem_singleton.mpr rfl))
          rw [if_pos hin, hvb]
        · rcases hw with hw | hw
          · rw [lookup?_setKey_other ba p.1 w _ hwp, hB w hw]
            have hcond : w ∈ keyList (done ++ [p]) ↔ w ∈ keyList done := by
              rw [hkdone', List.mem_append, List.mem_singleton]
              constructor
              · rintro (h | h)
                · exact h
                · exact absurd h hwp
              · exact Or.inl
            by_cases hd : w ∈ keyList done
            · rw [if_pos hd, if_pos (hcond.mpr hd)]
            · rw [if_neg hd, if_neg (fun hc => hd (hcond.mp hc))]
          · exact absurd hw hwp

theorem bowPair_spec (a b : SparseVec) :
    keyList (bowPair a b).2 = keyList (bowPair a b).1 ∧
    (keyList (bowPair a b).1).Nodup ∧
    (∀ w, w ∈ keyList (bowPair a b).1 ↔
      w ∈ keyList a.entries ∨ w ∈ keyList b.entries) ∧
    (∀ w, w ∈ keyList (bowPair a b).1 →
      lookup? (bowPair a b).1 w = some (val a w)) ∧
    (∀ w, w ∈ keyList (bowPair a b).2 →
      lookup? (bowPair a b).2 w = some (val b w)) := by
  rw [bowPair_eq_foldl]
  have hzero : keyList (a.entries.map (fun p => (p.1, (0:ℚ)))) =
      keyList a.entries := by
    unfold keyList
    rw [List.map_map]
    rfl
  apply bow_inv a b b.entries [] a.entries
    (a.entries.map (fun p => (p.1, (0:ℚ))))
  · rfl
  · exact hzero
  · exact a.nodupKeys
  · intro w
    constructor
    · exact Or.inl
    · rintro (h | h)
      · exact h
      · simp [keyList] at h
  · intro w hw
    obtain ⟨v, hv⟩ := lookup?_isSome a.entries w hw
    rw [hv]
    unfold val
    rw [hv]
    rfl
  · intro w hw
    rw [hzero] at hw
    rw [lookup?_mapZero a.entries w hw]
    rw [if_neg (by simp [keyList])]

theorem foldl_triple (l : List (String × ℚ)) (f g h : String × ℚ → ℚ) :
    ∀ c1 c2 c3 : ℚ,
      l.foldl (fun acc p => (acc.1 + f p, acc.2.1 + g p, acc.2.2 + h p))
        (c1, c2, c3) =
      (c1 + (l.map f).sum, c2 + (l.map g).sum, c3 + (l.map h).sum) := by
  induction l with
  | nil => intro c1 c2 c3; simp
  | cons p l ih =>
    intro c1 c2 c3
    rw [List.foldl_cons, ih, List.map_cons, List.map_cons, List.map_cons]
    simp only [List.sum_cons, Prod.mk.injEq]
    refine ⟨by ring, by ring, by ring⟩

theorem bowSums_eq (ab ba : List (String × ℚ)) :
    bowSums ab ba =
      ((ab.map (fun p => p.2 * p.2)).sum,
       (ab.map (fun p =>
         (lookup? ba p.1).getD 0 * (lookup? ba p.1).getD 0)).sum,
       (ab.map (fun p => p.2 * (lookup? ba p.1).getD 0)).sum) := by
  have h := foldl_triple ab (fun p => p.2 * p.2)
      (fun p => (lookup? ba p.1).getD 0 * (lookup? ba p.1).getD 0)
      (fun p => p.2 * (lookup? ba p.1).getD 0) 0 0 0
  simp only [zero_add] at h
  exact h

theorem sum_entries_key (l : List (String × ℚ)) (h : String → ℚ) :
    (l.map (fun p => h p.1)).sum = ((keyList l).map h).sum := by
  unfold keyList
  rw [List.map_map]
  rfl

theorem bowSums_spec (a b : SparseVec) :
    bowSums (bowPair a b).1 (bowPair a b).2 =
      (sumA2 a b, sumB2 a b, sumAB a b) := by
  obtain ⟨hk, hnd, hiff, hA, hB⟩ := bowPair_spec a b
  have hvalA : ∀ p ∈ (bowPair a b).1, p.2 = val a p.1 := by
    intro p hp
    have h1 : lookup? (bowPair a b).1 p.1 = some p.2 :=
      lookup?_of_mem_nodup _ p hnd hp
    have h2 : lookup? (bowPair a b).1 p.1 = some (val a p.1) :=
      hA p.1 (List.mem_map.mpr ⟨p, hp, rfl⟩)
    rw [h1] at h2
    exact Option.some.inj h2
  have hvalB : ∀ p ∈ (bowPair a b).1,
      (lookup? (bowPair a b).2 p.1).getD 0 = val b p.1 := by
    intro p hp
    have hmem : p.1 ∈ keyList (bowPair a b).2 := by
      rw [hk]
      exact List.mem_map.mpr ⟨p, hp, rfl⟩
    rw [hB p.1 hmem]
    rfl
  have hksup : (keyList (bowPair a b).1).toFinset = support a ∪ support b := by
    ext w
    rw [List.mem_toFinset, Finset.mem_union, hiff w]
    unfold support
    rw [List.mem_toFinset, List.mem_toFinset]
    rfl
  rw [bowSums_eq]
  have comp1 : ((bowPair a b).1.map (fun p => p.2 * p.2)).sum = sumA2 a b := by
    rw [List.map_congr_left
      (fun p hp => by rw [hvalA p hp] :
        ∀ p ∈ (bowPair a b).1,
          p.2 * p.2 = (fun q => val a q.1 * val a q.1) p)]
    rw [sum_entries_key _ (fun w => val a w * val a w)]
    rw [← List.sum_toFinset _ hnd, hksup]
    rfl
  have comp2 : ((bowPair a b).1.map (fun p =>
      (lookup? (bowPair a b).2 p.1).getD 0 *
      (lookup? (bowPair a b).2 p.1).getD 0)).sum = sumB2 a b := by
    rw [List.map_congr_left
      (fun p hp => by rw [hvalB p hp] :
        ∀ p ∈ (bowPair a b).1,
          (lookup? (bowPair a b).2 p.1).getD 0 *
          (lookup? (bowPair a b).2 p.1).getD 0 =
          (fun q => val b q.1 * val b q.1) p)]
    rw [sum_entries_key _ (fun w => val b w * val b w)]
    rw [← List.sum_toFinset _ hnd, hksup]
    rfl
  have comp3 : ((bowPair a b).1.map (fun p =>
      p.2 * (lookup? (bowPair a b).2 p.1).getD 0)).sum = sumAB a b := by
    rw [List.map_congr_left
      (fun p hp => by rw [hvalA p hp, hvalB p hp] :
        ∀ p ∈ (bowPair a b).1,
          p.2 * (lookup? (bowPair a b).2 p.1).getD 0 =
          (fun q => val a q.1 * val b q.1) p)]
    rw [sum_entries_key _ (fun w => val a w * val b w)]
    rw [← List.sum_toFinset _ hnd, hksup]
    rfl
  rw [comp1, comp2, comp3]

/-- C8: `cosine` returns the dot product over the vocabulary union
divided by the product of the two Euclidean norms when both sums of
squares are non-zero, and similarity 0 with distance 1 otherwise; under
the guard the denominator is non-zero, so no undefined value is
produced. -/
theorem claim8_theorem (a b : SparseVec) :
    (cosine a b =
      if sumA2 a b ≠ 0 ∧ sumB2 a b ≠ 0 then
        ⟨1 - ((sumAB a b : ℚ) : ℝ) /
            (Real.sqrt ((sumA2 a b : ℚ) : ℝ) * Real.sqrt ((sumB2 a b : ℚ) : ℝ)),
         ((sumAB a b : ℚ) : ℝ) /
            (Real.sqrt ((sumA2 a b : ℚ) : ℝ) * Real.sqrt ((sumB2 a b : ℚ) : ℝ))⟩
      else ⟨1, 0⟩) ∧
    (sumA2 a b ≠ 0 → sumB2 a b ≠ 0 →
      Real.sqrt ((sumA2 a b : ℚ) : ℝ) * Real.sqrt ((sumB2 a b : ℚ) : ℝ) ≠ 0) := by
  have hA2 : (0:ℚ) ≤ sumA2 a b :=
    Finset.sum_nonneg (fun w _ => mul_self_nonneg _)
  have hB2 : (0:ℚ) ≤ sumB2 a b :=
    Finset.sum_nonneg (fun w _ => mul_self_nonneg _)
  constructor
  · simp only [cosine]
    rw [bowSums_spec]
    by_cases hc : sumA2 a b ≠ 0 ∧ sumB2 a b ≠ 0
    · rw [if_pos hc, if_pos hc]
    · rw [if_neg hc, if_neg hc]
      norm_num
  · intro h1 h2
    have hp1 : (0:ℝ) < Real.sqrt ((sumA2 a b : ℚ) : ℝ) := by
      apply Real.sqrt_pos.mpr
      have : (0:ℚ) < sumA2 a b := lt_of_le_of_ne hA2 (Ne.symm h1)
      exact_mod_cast this
    have hp2 : (0:ℝ) < Real.sqrt ((sumB2 a b : ℚ) : ℝ) := by
      apply Real.sqrt_pos.mpr
      have : (0:ℚ) < sumB2 a b := lt_of_le_of_ne hB2 (Ne.symm h2)
      exact_mod_cast this
    exact ne_of_gt (mul_pos hp1 hp2)

/-- A concrete one-word vector used to witness the cosine claim. -/
def vecX : SparseVec := ⟨[("x", 1)], by simp⟩

theorem claim8_witness :
    sumA2 vecX vecX ≠ 0 ∧ sumB2 vecX vecX ≠ 0 ∧
    Real.sqrt ((sumA2 vecX vecX : ℚ) : ℝ) *
      Real.sqrt ((sumB2 vecX vecX : ℚ) : ℝ) ≠ 0 := by
  have h1 : sumA2 vecX vecX = 1 := by
    norm_num [sumA2, support, val, lookup?, vecX]
  have h2 : sumB2 vecX vecX = 1 := by
    norm_num [sumB2, support, val, lookup?, vecX]
  refine ⟨by rw [h1]; norm_num, by rw [h2]; norm_num,
    (claim8_theorem vecX vecX).2 (by rw [h1]; norm_num) (by rw [h2]; norm_num)⟩

end ComputeSimilarity
